import Mathlib

/-!
Verification of the activation-layer module `megengine/module/activation.py`.

The file under verification is a thin layer of wrapper classes (Softmax,
Sigmoid, SiLU, GELU, ReLU, PReLU, LeakyReLU, ELU) over functional operators
provided by the surrounding framework.  Only the wrapper file itself is part
of the source slice; the delegated operators (`prelu`, `softmax`,
`leaky_relu`, `elu`, ...) live elsewhere in the repository and are modelled
here from the specification, each such definition carrying a doc comment
saying so.

Tensors are modelled shallowly as a shape (list of dimension sizes) together
with flattened data.  Exact rational arithmetic stands in for float32 where
the values involved are exactly representable; the real-valued operators
(softmax, ELU) are modelled over the reals.
-/

/-- A tensor: a shape (list of dimension sizes, row-major NCHW layout) and
flattened data.  Rational entries model the exactly representable float
values exercised by the claims. -/
structure Tensor where
  shape : List Nat
  data : List ℚ
  deriving DecidableEq

/-- The two Python exceptions the PReLU forward path can raise before
delegating: the explicit `assert` (AssertionError with a message) and the
IndexError from reading `inputs.shape[1]` on a tensor of rank below 2. -/
inductive PErr where
  | assertionError (msg : String)
  | indexError
  deriving DecidableEq

/-- Modelled from the spec: the external functional operator `prelu` (absent
from the source slice), following the documented formula
`PReLU(x) = max(0,x) + a * min(0,x)`.  When the weight holds a single entry it
is the shared slope `a`; otherwise the slope is taken per channel under NCHW
layout (flat index `i` belongs to channel `(i / (H*W)) % C`). -/
def prelu (inputs weight : Tensor) : Tensor :=
  match weight.data with
  | [a] => ⟨inputs.shape, inputs.data.map fun v => max 0 v + a * min 0 v⟩
  | _ =>
    match inputs.shape with
    | _ :: c :: rest =>
      ⟨inputs.shape,
        inputs.data.enum.map fun p =>
          let a := weight.data.getD ((p.1 / rest.prod) % c) 0
          max 0 p.2 + a * min 0 p.2⟩
    | _ => inputs

/-- The PReLU module instance: the stored `num_parameters` configuration
field and the owned weight parameter tensor. -/
structure PReLU where
  num_parameters : Int
  weight : Tensor
  deriving DecidableEq

/-- Embedding of `PReLU.__init__`: stores `num_parameters`; when
`num_parameters > 1` the weight is `np.full((1, num_parameters, 1, 1), init)`,
otherwise the weight is built from the one-element list `[init]`. -/
def PReLU.construct (num_parameters : Int) (init : ℚ) : PReLU :=
  if num_parameters > 1 then
    ⟨num_parameters,
      ⟨[1, num_parameters.toNat, 1, 1], List.replicate num_parameters.toNat init⟩⟩
  else
    ⟨num_parameters, ⟨[1], [init]⟩⟩

/-- Embedding of `PReLU.forward`, in state-passing style: the result carries
the (unchanged) module state, the (unchanged) input, and either the delegated
`prelu` result or the raised exception.  The Python `or` in the assert
short-circuits: when the weight shape is `(1,)` the second disjunct, and with
it `inputs.shape[1]`, is never evaluated; otherwise reading `inputs.shape[1]`
on a tensor of rank below 2 raises IndexError before the assert can fail. -/
def PReLU.forward (m : PReLU) (inputs : Tensor) : PReLU × Tensor × Except PErr Tensor :=
  if m.weight.shape = [1] then
    (m, inputs, Except.ok (prelu inputs m.weight))
  else
    match inputs.shape with
    | _ :: c :: _ =>
      if m.weight.shape = [1, c, 1, 1] then
        (m, inputs, Except.ok (prelu inputs m.weight))
      else
        (m, inputs, Except.error (PErr.assertionError "invalid weight\x27s shape"))
    | _ => (m, inputs, Except.error PErr.indexError)

/-- The legal weight shapes at forward time, as the spec states them:
`(1,)`, or `(1, C, 1, 1)` where `C` is the input's channel-axis size
(dimension 1, which must exist). -/
def legalWeightShape (m : PReLU) (inputs : Tensor) : Prop :=
  m.weight.shape = [1]
    ∨ ∃ n c rest, inputs.shape = n :: c :: rest ∧ m.weight.shape = [1, c, 1, 1]

/-- The Softmax module instance: the stored axis configuration field
(`None` selects the framework default axis). -/
structure Softmax where
  axis : Option Int
  deriving DecidableEq

/-- Modelled from the spec: one fiber of the external functional operator
`softmax` (absent from the source slice), following the documented formula
`Softmax(x_i) = exp(x_i) / sum_j exp(x_j)` over the elements of the fiber
along the chosen axis. -/
noncomputable def softmaxList (l : List ℝ) : List ℝ :=
  l.map fun v => Real.exp v / (l.map Real.exp).sum

/-- Embedding of `Softmax.forward`: delegates to the softmax operator along
the stored axis.  The input tensor is represented by its decomposition into
fibers along that axis (each inner list is one fiber), so the axis choice is
captured by the decomposition. -/
noncomputable def Softmax.forward (_ : Softmax) (fibers : List (List ℝ)) :
    List (List ℝ) :=
  fibers.map softmaxList

/-- The LeakyReLU module instance: the stored `negative_slope` field. -/
structure LeakyReLU where
  negative_slope : ℚ
  deriving DecidableEq

/-- Modelled from the spec: the external functional operator `leaky_relu`
(absent from the source slice), following the documented formula
`LeakyReLU(x) = max(0,x) + negative_slope * min(0,x)` elementwise. -/
def leaky_relu (inputs : List ℚ) (negative_slope : ℚ) : List ℚ :=
  inputs.map fun v => max 0 v + negative_slope * min 0 v

/-- Embedding of `LeakyReLU.__init__`: stores `negative_slope`. -/
def LeakyReLU.construct (negative_slope : ℚ) : LeakyReLU :=
  ⟨negative_slope⟩

/-- Embedding of `LeakyReLU.forward`: delegates to `leaky_relu` with the
stored slope. -/
def LeakyReLU.forward (m : LeakyReLU) (inputs : List ℚ) : List ℚ :=
  leaky_relu inputs m.negative_slope

/-- The ELU module instance: the stored `alpha` field. -/
structure ELU where
  alpha : ℝ

/-- Modelled from the spec: the external functional operator `elu` (absent
from the source slice), following the documented formula: `x` when `x > 0`,
`alpha * (exp(x) - 1)` when `x <= 0`, elementwise. -/
noncomputable def elu (inputs : List ℝ) (alpha : ℝ) : List ℝ :=
  inputs.map fun v => if 0 < v then v else alpha * (Real.exp v - 1)

/-- Embedding of `ELU.__init__`: stores `alpha`. -/
def ELU.construct (alpha : ℝ) : ELU :=
  ⟨alpha⟩

/-- Embedding of `ELU.forward`: delegates to `elu` with the stored alpha. -/
noncomputable def ELU.forward (m : ELU) (inputs : List ℝ) : List ℝ :=
  elu inputs m.alpha

/-- Claim C1: PReLU's forward fails if and only if the stored weight's shape
is neither `(1,)` nor `(1, C, 1, 1)` with `C` the input's channel-axis size;
when the shape is legal, forward returns `prelu(input, weight)`. -/
theorem PReLU.forward_fails_iff (m : PReLU) (x : Tensor) :
    ((∃ e, (PReLU.forward m x).2.2 = Except.error e) ↔ ¬ legalWeightShape m x)
    ∧ (legalWeightShape m x → (PReLU.forward m x).2.2 = Except.ok (prelu x m.weight)) := by
  by_cases hw : m.weight.shape = [1]
  · simp [PReLU.forward, hw, legalWeightShape]
  · match hx : x.shape with
    | n :: c :: rest =>
      by_cases hc : m.weight.shape = [1, c, 1, 1]
      · constructor
        · simp [PReLU.forward, hw, hx, hc, legalWeightShape]
        · intro _
          simp [PReLU.forward, hw, hx, hc]
      · constructor
        · simp only [PReLU.forward, hw, if_false, hx, hc]
          constructor
          · rintro _ (h | ⟨n2, c2, rest2, hsh, hwsh⟩)
            · exact hw h
            · rw [hx] at hsh
              cases hsh
              exact hc hwsh
          · intro _
            exact ⟨PErr.assertionError "invalid weight\x27s shape", by simp [hw, hc]⟩
        · rintro (h | ⟨n2, c2, rest2, hsh, hwsh⟩)
          · exact absurd h hw
          · rw [hx] at hsh
            cases hsh
            exact absurd hwsh hc
    | [n] =>
      constructor
      · simp only [PReLU.forward, hw, if_false, hx]
        constructor
        · rintro _ (h | ⟨n2, c2, rest2, hsh, hwsh⟩)
          · exact hw h
          · rw [hx] at hsh
            cases hsh
        · intro _
          exact ⟨PErr.indexError, by simp [hw]⟩
      · rintro (h | ⟨n2, c2, rest2, hsh, hwsh⟩)
        · exact absurd h hw
        · rw [hx] at hsh
          cases hsh
    | [] =>
      constructor
      · simp only [PReLU.forward, hw, if_false, hx]
        constructor
        · rintro _ (h | ⟨n2, c2, rest2, hsh, hwsh⟩)
          · exact hw h
          · rw [hx] at hsh
            cases hsh
        · intro _
          exact ⟨PErr.indexError, by simp [hw]⟩
      · rintro (h | ⟨n2, c2, rest2, hsh, hwsh⟩)
        · exact absurd h hw
        · rw [hx] at hsh
          cases hsh

/-- Witness for C1 at a concrete instance: the default-shaped weight `(1,)`
is legal for a rank-1 input, so forward returns the delegated result. -/
theorem PReLU.forward_fails_iff_witness :
    (PReLU.forward ⟨1, ⟨[1], [1/4]⟩⟩ ⟨[3], [1, 2, 3]⟩).2.2
      = Except.ok (prelu ⟨[3], [1, 2, 3]⟩ (⟨1, ⟨[1], [1/4]⟩⟩ : PReLU).weight) :=
  (PReLU.forward_fails_iff ⟨1, ⟨[1], [1/4]⟩⟩ ⟨[3], [1, 2, 3]⟩).2 (Or.inl rfl)

/-- Claim C2: for `num_parameters >= 1` the constructor stores
`num_parameters` and allocates a weight filled uniformly with `init`, of
shape `(1,)` when `num_parameters = 1` and `(1, num_parameters, 1, 1)`
otherwise. -/
theorem PReLU.construct_spec (n : Int) (init : ℚ) (h : 1 ≤ n) :
    (PReLU.construct n init).num_parameters = n
    ∧ (PReLU.construct n init).weight.shape
        = (if n = 1 then [1] else [1, n.toNat, 1, 1])
    ∧ (PReLU.construct n init).weight.data
        = List.replicate (PReLU.construct n init).weight.shape.prod init := by
  rcases lt_or_eq_of_le h with h1 | h1
  · have hne : n ≠ 1 := by omega
    have hgt : n > 1 := h1
    simp [PReLU.construct, hgt, hne]
  · simp [PReLU.construct, ← h1]

/-- Witness for C2 at `num_parameters = 2`, `init = 1/2`. -/
theorem PReLU.construct_spec_witness :
    (PReLU.construct 2 (1/2)).num_parameters = 2
    ∧ (PReLU.construct 2 (1/2)).weight.shape
        = (if (2 : Int) = 1 then [1] else [1, (2 : Int).toNat, 1, 1])
    ∧ (PReLU.construct 2 (1/2)).weight.data
        = List.replicate (PReLU.construct 2 (1/2)).weight.shape.prod (1/2) :=
  PReLU.construct_spec 2 (1/2) (by decide)

/-- Claim C10: for `num_parameters <= 0` the constructor does not fail: the
`num_parameters > 1` test is false, so it stores `num_parameters` unchanged
and allocates the same `(1,)`-shaped weight `[init]` as for
`num_parameters = 1`. -/
theorem PReLU.construct_nonpos (n : Int) (init : ℚ) (h : n ≤ 0) :
    (PReLU.construct n init).num_parameters = n
    ∧ (PReLU.construct n init).weight = ⟨[1], [init]⟩
    ∧ (PReLU.construct n init).weight = (PReLU.construct 1 init).weight := by
  have hng : ¬ n > 1 := by omega
  simp [PReLU.construct, hng]

/-- Witness for C10 at `num_parameters = -3`. -/
theorem PReLU.construct_nonpos_witness :
    (PReLU.construct (-3) (1/4)).num_parameters = -3
    ∧ (PReLU.construct (-3) (1/4)).weight = ⟨[1], [1/4]⟩
    ∧ (PReLU.construct (-3) (1/4)).weight = (PReLU.construct 1 (1/4)).weight :=
  PReLU.construct_nonpos (-3) (1/4) (by decide)

/-- The documented PReLU formula `max(0,x) + a * min(0,x)` agrees with its
piecewise reading: `x` when `x >= 0`, `a * x` otherwise. -/
theorem slope_piecewise {α : Type} [LinearOrderedField α] (a v : α) :
    max 0 v + a * min 0 v = if 0 ≤ v then v else a * v := by
  rcases le_or_lt 0 v with h | h
  · simp [max_eq_right h, min_eq_left h, if_pos h]
  · simp [max_eq_left h.le, min_eq_right h.le, if_neg (not_le.mpr h)]

/-- Claim C6: a PReLU built with the default arguments (`num_parameters = 1`,
`init = 0.25`) maps the input `[-1.2, -3.7, 2.7]` to
`[-0.3, -0.925, 2.7]` (exact rationals: `-3/10`, `-37/40`, `27/10`). -/
theorem PReLU.default_example :
    (PReLU.forward (PReLU.construct 1 (1/4)) ⟨[3], [-(6/5), -(37/10), 27/10]⟩).2.2
      = Except.ok ⟨[3], [-(3/10), -(37/40), 27/10]⟩ := by
  have hc : PReLU.construct 1 (1/4) = ⟨1, ⟨[1], [1/4]⟩⟩ := by
    simp [PReLU.construct]
  have hp : prelu ⟨[3], [-(6/5), -(37/10), 27/10]⟩ ⟨[1], [1/4]⟩
      = ⟨[3], [-(3/10), -(37/40), 27/10]⟩ := by
    simp only [prelu, List.map]
    norm_num [slope_piecewise]
  have hf : (PReLU.forward ⟨1, ⟨[1], [1/4]⟩⟩ ⟨[3], [-(6/5), -(37/10), 27/10]⟩).2.2
      = Except.ok (prelu ⟨[3], [-(6/5), -(37/10), 27/10]⟩ ⟨[1], [1/4]⟩) := by
    simp [PReLU.forward]
  rw [hc, hf, hp]

/-- Claim C7: whenever the shape assertion fires (the weight shape is neither
`(1,)` nor `(1, C, 1, 1)` for the input's channel-axis size `C`), the failure
carries the descriptive message naming the weight's shape as invalid. -/
theorem PReLU.forward_assertion_message (m : PReLU) (x : Tensor)
    (n c : Nat) (rest : List Nat) (hx : x.shape = n :: c :: rest)
    (h1 : m.weight.shape ≠ [1]) (h2 : m.weight.shape ≠ [1, c, 1, 1]) :
    (PReLU.forward m x).2.2
      = Except.error (PErr.assertionError "invalid weight\x27s shape") := by
  simp [PReLU.forward, h1, hx, h2]

/-- Witness for C7: a weight of shape `(2,)` against a rank-2 input with 3
channels. -/
theorem PReLU.forward_assertion_message_witness :
    (PReLU.forward ⟨2, ⟨[2], [1/4, 1/4]⟩⟩ ⟨[1, 3], [0, 0, 0]⟩).2.2
      = Except.error (PErr.assertionError "invalid weight\x27s shape") :=
  PReLU.forward_assertion_message ⟨2, ⟨[2], [1/4, 1/4]⟩⟩ ⟨[1, 3], [0, 0, 0]⟩
    1 3 [] rfl (by decide) (by decide)

/-- Claim C8: forward is free of side effects: it leaves the module state
(in particular the weight parameter and the stored `num_parameters`) and the
input tensor unchanged, on the succeeding and on the failing branch alike. -/
theorem PReLU.forward_frame (m : PReLU) (x : Tensor) :
    (PReLU.forward m x).1 = m ∧ (PReLU.forward m x).2.1 = x := by
  unfold PReLU.forward
  split
  · exact ⟨rfl, rfl⟩
  · split
    · split
      · exact ⟨rfl, rfl⟩
      · exact ⟨rfl, rfl⟩
    · exact ⟨rfl, rfl⟩

/-- Claim C9: with a `(1,)`-shaped weight the shape check short-circuits
before reading the input's dimension 1, so forward succeeds for inputs of any
rank; with a 4-D weight and an input of rank below 2, reading the channel
size fails (IndexError). -/
theorem PReLU.forward_shortcircuit :
    (∀ (m : PReLU) (x : Tensor), m.weight.shape = [1] →
        ∃ t, (PReLU.forward m x).2.2 = Except.ok t)
    ∧ (∀ (m : PReLU) (x : Tensor) (c : Nat), m.weight.shape = [1, c, 1, 1] →
        x.shape.length < 2 →
        (PReLU.forward m x).2.2 = Except.error PErr.indexError) := by
  constructor
  · intro m x hw
    exact ⟨prelu x m.weight, by simp [PReLU.forward, hw]⟩
  · intro m x c hw hr
    have hne : m.weight.shape ≠ [1] := by simp [hw]
    match hx : x.shape with
    | [] => simp [PReLU.forward, hne, hx]
    | [n] => simp [PReLU.forward, hne, hx]
    | n :: c2 :: rest =>
      rw [hx] at hr
      simp only [List.length_cons] at hr
      omega

/-- Witness for C9: a `(1,)`-shaped weight succeeds on a rank-0 input, and a
`(1,2,1,1)`-shaped weight fails with IndexError on a rank-1 input. -/
theorem PReLU.forward_shortcircuit_witness :
    (∃ t, (PReLU.forward ⟨1, ⟨[1], [1/4]⟩⟩ ⟨[], [2]⟩).2.2 = Except.ok t)
    ∧ (PReLU.forward ⟨2, ⟨[1, 2, 1, 1], [1/4, 1/4]⟩⟩ ⟨[3], [1, 2, 3]⟩).2.2
        = Except.error PErr.indexError :=
  ⟨PReLU.forward_shortcircuit.1 ⟨1, ⟨[1], [1/4]⟩⟩ ⟨[], [2]⟩ rfl,
    PReLU.forward_shortcircuit.2 ⟨2, ⟨[1, 2, 1, 1], [1/4, 1/4]⟩⟩ ⟨[3], [1, 2, 3]⟩
      2 rfl (by decide)⟩

/-- Summing a list after dividing every element by a constant divides the sum
by that constant. -/
theorem sum_map_div (l : List ℝ) (c : ℝ) :
    (l.map fun v => v / c).sum = l.sum / c := by
  induction l with
  | nil => simp
  | cons a t ih => simp [ih, add_div]

/-- The sum of the exponentials of a nonempty list is positive. -/
theorem expsum_pos (l : List ℝ) (h : l ≠ []) : 0 < (l.map Real.exp).sum := by
  match l, h with
  | a :: t, _ =>
    simp only [List.map_cons, List.sum_cons]
    have h1 : (0:ℝ) < Real.exp a := Real.exp_pos a
    have h2 : (0:ℝ) ≤ (t.map Real.exp).sum :=
      List.sum_nonneg fun x hx => by
        obtain ⟨v, _, rfl⟩ := List.mem_map.mp hx
        exact (Real.exp_pos v).le
    linarith

/-- A nonempty softmax fiber sums to 1. -/
theorem softmaxList_sum (l : List ℝ) (h : l ≠ []) : (softmaxList l).sum = 1 := by
  have hpos := expsum_pos l h
  have hmap : (l.map fun v => Real.exp v / (l.map Real.exp).sum)
      = ((l.map Real.exp).map fun v => v / (l.map Real.exp).sum) := by
    simp [List.map_map, Function.comp]
  simp only [softmaxList]
  rw [hmap, sum_map_div, div_self (ne_of_gt hpos)]

/-- Every element of a nonempty softmax fiber lies in `[0, 1]`. -/
theorem softmaxList_bounds (l : List ℝ) (h : l ≠ []) :
    ∀ v ∈ softmaxList l, 0 ≤ v ∧ v ≤ 1 := by
  intro v hv
  obtain ⟨a, ha, rfl⟩ := List.mem_map.mp hv
  have hpos := expsum_pos l h
  refine ⟨div_nonneg (Real.exp_pos a).le hpos.le, ?_⟩
  rw [div_le_one hpos]
  refine List.single_le_sum (fun x hx => ?_) _ (List.mem_map_of_mem Real.exp ha)
  obtain ⟨w, _, rfl⟩ := List.mem_map.mp hx
  exact (Real.exp_pos w).le

/-- Claim C3: for every finite real input (given by its nonempty fibers along
the chosen axis), Softmax's forward preserves the shape, every output element
lies in `[0, 1]`, and the elements along the reduced axis sum to 1. -/
theorem Softmax.forward_normalizes (m : Softmax) (x : List (List ℝ))
    (h : ∀ l ∈ x, l ≠ []) :
    ((Softmax.forward m x).map List.length = x.map List.length)
    ∧ (∀ l ∈ Softmax.forward m x, l.sum = 1)
    ∧ (∀ l ∈ Softmax.forward m x, ∀ v ∈ l, 0 ≤ v ∧ v ≤ 1) := by
  refine ⟨?_, ?_, ?_⟩
  · simp [Softmax.forward, softmaxList, List.map_map, Function.comp, List.length_map]
  · intro l hl
    obtain ⟨f, hf, rfl⟩ := List.mem_map.mp hl
    exact softmaxList_sum f (h f hf)
  · intro l hl
    obtain ⟨f, hf, rfl⟩ := List.mem_map.mp hl
    exact softmaxList_bounds f (h f hf)

/-- Witness for C3 at the single-fiber input `[[0]]`. -/
theorem Softmax.forward_normalizes_witness :
    ((Softmax.forward ⟨none⟩ [[(0:ℝ)]]).map List.length = [[(0:ℝ)]].map List.length)
    ∧ (∀ l ∈ Softmax.forward ⟨none⟩ [[(0:ℝ)]], l.sum = 1)
    ∧ (∀ l ∈ Softmax.forward ⟨none⟩ [[(0:ℝ)]], ∀ v ∈ l, 0 ≤ v ∧ v ≤ 1) :=
  Softmax.forward_normalizes ⟨none⟩ [[(0:ℝ)]] (by simp)

/-- Claim C4: a LeakyReLU constructed with `negative_slope = slope` maps each
element `x` to `x` when `x >= 0` and to `slope * x` when `x < 0`. -/
theorem LeakyReLU.forward_piecewise (slope : ℚ) (inputs : List ℚ) :
    (LeakyReLU.construct slope).forward inputs
      = inputs.map fun v => if 0 ≤ v then v else slope * v := by
  simp only [LeakyReLU.forward, LeakyReLU.construct, leaky_relu, slope_piecewise]

/-- Claim C5: an ELU constructed with a given `alpha` maps each element `x`
to `x` when `x > 0` and to `alpha * (exp(x) - 1)` when `x <= 0`. -/
theorem ELU.forward_elementwise (a : ℝ) (inputs : List ℝ) :
    (ELU.construct a).forward inputs
      = inputs.map fun v => if 0 < v then v else a * (Real.exp v - 1) := rfl
